import Mathlib

/-!
Verification of the ordering/propagation core of the `sludge` engine.

Part 1 models `src/dependency_graph.rs` (`DependencyGraph<T>`): a map from
interned names to values with declared dependency names, a cached topological
order, and a dirty flag.  The Rust code stores nodes in a
`petgraph::StableGraph` keyed by `NodeIndex`; we model the node table as a
list of `(index, name, value)` triples with a fresh-index counter.  (The Rust
`StableGraph` may recycle freed indices; we always allocate fresh ones.  Index
identity is internal and never observable through the API, and uniqueness of
live indices is preserved either way.)  Edges are cleared and rebuilt from the
current `deps` lists at the start of every `update()` and are never read
between updates, so they are not part of the modelled state; `update`
recomputes them via `depEdges`.

The actual topological sort is `petgraph::algo::toposort`, a library function
whose source is not part of this repository.  `kahn` below is therefore
modelled from the spec ("standard depth-first or Kahn's-algorithm topological
sort", failing with an error naming one node's identifier on the cycle if no
valid order exists).

Part 2 (further below) models `src/transform.rs` (`TransformManager`).
-/

/-! ## Part 1: the dependency graph (src/dependency_graph.rs) -/

/-- Interned string identifier (`sludge::Atom`). -/
abbrev Atom := String

/-- The per-name bookkeeping record (`Node` in dependency_graph.rs): the
declared dependency names and the index of the node in the stable graph. -/
structure DNode where
  deps : List Atom
  graph_index : Nat
deriving DecidableEq, Repr

/-- State of `DependencyGraph<T>`: the stable graph's node table
(`(index, name, value)` triples), the fresh-index counter, the `indices`
hash map (association list with unique keys), the cached topological order
(list of node indices) and the dirty flag `changed`. -/
structure DepGraph (T : Type) where
  graph : List (Nat × Atom × T)
  nextIdx : Nat
  indices : List (Atom × DNode)
  sorted : List Nat
  changed : Bool

/-- Association-list lookup, modelling `HashMap::get`. -/
def lookupA {α : Type} (l : List (Atom × α)) (n : Atom) : Option α :=
  (l.find? (fun p => p.1 == n)).map (·.2)

/-- Association-list insert, modelling `HashMap::insert`: any previous
binding for the key is dropped and the new binding added. -/
def insertA {α : Type} (l : List (Atom × α)) (n : Atom) (v : α) : List (Atom × α) :=
  l.filter (fun p => decide (p.1 ≠ n)) ++ [(n, v)]

/-- `DependencyGraph::new()`. -/
def DepGraph.new (T : Type) : DepGraph T :=
  { graph := [], nextIdx := 0, indices := [], sorted := [], changed := false }

/-- `DependencyGraph::insert(value, name, deps)`.  Adds a fresh node to the
stable graph, records the dependency list under the name, marks the graph
dirty, and — when the name was already bound — removes the node the old
binding pointed at and returns its value.  The Rust method returns
`Result<Option<T>>` but accepts unconditionally; we model the always-`Ok`
payload directly. -/
def DepGraph.insert {T : Type} (g : DepGraph T) (value : T) (name : Atom)
    (deps : List Atom) : Option T × DepGraph T :=
  match lookupA g.indices name with
  | none =>
      (none,
       { graph := g.graph ++ [(g.nextIdx, name, value)], nextIdx := g.nextIdx + 1,
         indices := insertA g.indices name ⟨deps, g.nextIdx⟩,
         sorted := g.sorted, changed := true })
  | some old =>
      (((g.graph ++ [(g.nextIdx, name, value)]).find?
          (fun p => p.1 == old.graph_index)).map (fun p => p.2.2),
       { graph := (g.graph ++ [(g.nextIdx, name, value)]).filter
           (fun p => decide (p.1 ≠ old.graph_index)),
         nextIdx := g.nextIdx + 1,
         indices := insertA g.indices name ⟨deps, g.nextIdx⟩,
         sorted := g.sorted, changed := true })

/-- `DependencyGraph::is_dirty()`. -/
def DepGraph.is_dirty {T : Type} (g : DepGraph T) : Bool :=
  g.changed

/-- The edge list rebuilt from the current dependency declarations, exactly
as `update()` does: for every recorded node and every declared dependency
name that is currently bound, an edge from the dependency's node index to the
dependent's node index.  Dangling dependency names contribute nothing. -/
def depEdges (indices : List (Atom × DNode)) : List (Nat × Nat) :=
  indices.flatMap (fun p =>
    p.2.deps.filterMap (fun d =>
      (lookupA indices d).map (fun dn => (dn.graph_index, p.2.graph_index))))

/-- `v` has no incoming edge from the remaining node set. -/
def noIncoming (edges : List (Nat × Nat)) (remaining : List Nat) (v : Nat) : Bool :=
  !remaining.any (fun u => decide ((u, v) ∈ edges))

/-- Pick some predecessor of `v` within `remaining` (used only on a stuck
node set, where every remaining node has one). -/
def pickPred (edges : List (Nat × Nat)) (remaining : List Nat) (v : Nat) : Nat :=
  (remaining.find? (fun u => decide ((u, v) ∈ edges))).getD v

/-- Walk predecessor links inside a stuck node set until a node repeats; the
first repeated node lies on a dependency cycle. -/
def findCycleNode (edges : List (Nat × Nat)) (remaining : List Nat) :
    Nat → Nat → List Nat → Nat
  | 0, cur, _ => cur
  | fuel+1, cur, visited =>
    let p := pickPred edges remaining cur
    if p ∈ cur :: visited then p
    else findCycleNode edges remaining fuel p (cur :: visited)

/-- Modelled from the spec: the topological sort performed by
`petgraph::algo::toposort` (not part of this repository's sources).  Per the
spec it is a standard topological sort over the rebuilt adjacency structure
that, when no valid order exists, fails naming one node's identifier on the
cycle.  Kahn's algorithm: repeatedly emit the nodes with no incoming edge
from the not-yet-emitted set; if none exists while nodes remain, the
remainder contains a cycle and a node on it is reported. -/
def kahn (edges : List (Nat × Nat)) : Nat → List Nat → Except Nat (List Nat)
  | _, [] => Except.ok []
  | 0, r :: rs => Except.error (findCycleNode edges (r :: rs) (r :: rs).length r [])
  | fuel+1, r :: rs =>
    if ((r :: rs).filter (fun v => noIncoming edges (r :: rs) v)).isEmpty then
      Except.error (findCycleNode edges (r :: rs) (r :: rs).length r [])
    else
      match kahn edges fuel ((r :: rs).filter (fun v => !noIncoming edges (r :: rs) v)) with
      | Except.ok rest =>
          Except.ok ((r :: rs).filter (fun v => noIncoming edges (r :: rs) v) ++ rest)
      | Except.error e => Except.error e

/-- `DependencyGraph::update()`.  Not dirty: immediate `Ok(false)`.
Otherwise rebuild the edges from the current dependency lists, topologically
sort the full node set, cache the order and clear the dirty flag on success,
or fail carrying the name of a reported on-cycle node (the Rust code wraps
this name in an explanatory `anyhow!` message; the carried name is the
content the message interpolates).  On failure nothing is cached and the
dirty flag is not cleared: the returned state is unchanged. -/
def DepGraph.update {T : Type} (g : DepGraph T) : Except Atom (Bool × DepGraph T) :=
  if !g.changed then Except.ok (false, g)
  else
    match kahn (depEdges g.indices) (g.graph.map (·.1)).length (g.graph.map (·.1)) with
    | Except.ok order =>
        Except.ok (true, { g with sorted := order, changed := false })
    | Except.error i =>
        Except.error (((g.graph.find? (fun p => p.1 == i)).map (fun p => p.2.1)).getD "")

/-- `DependencyGraph::sorted()`.  The Rust method `assert!`s the graph is not
dirty and then yields `(name, value)` pairs following the cached index order;
`none` models the assertion failure (panic). -/
def DepGraph.sortedSeq {T : Type} (g : DepGraph T) : Option (List (Atom × T)) :=
  if g.changed then none
  else some (g.sorted.filterMap (fun i =>
    (g.graph.find? (fun p => p.1 == i)).map (fun p => p.2)))

/-- States reachable through the public API: `new`, `insert`, and successful
`update` (a failed `update` hands back no new state in this pure model). -/
inductive Reachable {T : Type} : DepGraph T → Prop
  | new : Reachable (DepGraph.new T)
  | ins {g : DepGraph T} (v : T) (n : Atom) (d : List Atom) :
      Reachable g → Reachable (g.insert v n d).2
  | upd {g : DepGraph T} {b : Bool} {g' : DepGraph T} :
      Reachable g → g.update = Except.ok (b, g') → Reachable g'

/-- Reachability in the rebuilt edge relation (zero or more edge steps). -/
inductive ReachE (E : List (Nat × Nat)) : Nat → Nat → Prop
  | refl (a : Nat) : ReachE E a a
  | head {a b c : Nat} : (a, b) ∈ E → ReachE E b c → ReachE E a c

/-- `n` lies on a cycle of the edge relation `E`. -/
def OnCycle (E : List (Nat × Nat)) (n : Nat) : Prop :=
  ∃ m, (n, m) ∈ E ∧ ReachE E m n

/-- The cached order is a valid topological order of the current state: a
permutation of the node indices in which every rebuilt edge points forward. -/
def SortedOK {T : Type} (g : DepGraph T) : Prop :=
  g.sorted.Perm (g.graph.map (·.1)) ∧
  ∀ u v, (u, v) ∈ depEdges g.indices → [u, v].Sublist g.sorted

/-- Structural invariant maintained by the dependency-graph API. -/
structure GInv {T : Type} (g : DepGraph T) : Prop where
  idx_mem : ∀ n nd, (n, nd) ∈ g.indices → ∃ v, (nd.graph_index, n, v) ∈ g.graph
  graph_nodup : (g.graph.map (·.1)).Nodup
  idx_lt : ∀ p ∈ g.graph, p.1 < g.nextIdx
  keys_nodup : (g.indices.map (·.1)).Nodup
  idx_inj : ∀ n₁ nd₁ n₂ nd₂, (n₁, nd₁) ∈ g.indices → (n₂, nd₂) ∈ g.indices →
      nd₁.graph_index = nd₂.graph_index → n₁ = n₂
  graph_mem : ∀ i n v, (i, n, v) ∈ g.graph →
      ∃ nd, (n, nd) ∈ g.indices ∧ nd.graph_index = i
  sorted_ok : g.changed = false → SortedOK g

/-! ## Part 2: the transform manager (src/transform.rs)

`TransformManager::update` reads the world (entity store), the hierarchy
manager and two change-event streams.  The entity store (`ecs.rs`) and the
hierarchy manager (`hierarchy.rs`) are not among the given sources, so their
read interfaces are modelled from the spec: the hierarchy is a snapshot
providing `all()` (ancestor-first traversal order of tracked entities),
`parent()` and `children()`; the world is a keyed store of `Transform`
components.  Per the spec's change-stream contract, the store's stream
records a `Modified` event for every mutation performed through the store,
so `tmUpdate` also returns the list of events its own writes append (these
are what the manager's next `update` drains). -/

/-- Opaque entity identifier. -/
abbrev Entity := Nat

/-- Exact model of a planar affine transform (`Transform3<f32>` restricted to
the plane actually exercised: the spec's scenarios stay at `z = 0` and use
only translations and the 180-degree rotation, all exact over the integers).
A point `(px, py)` maps to `(a*px + b*py + x, c*px + d*py + y)`. -/
structure Tx where
  a : Int
  b : Int
  c : Int
  d : Int
  x : Int
  y : Int
deriving DecidableEq, Repr

/-- The identity transform. -/
def Tx.identity : Tx := ⟨1, 0, 0, 1, 0, 0⟩

/-- Composition `s * t`: apply `t`, then `s` (matrix product). -/
def Tx.mul (s t : Tx) : Tx :=
  ⟨s.a * t.a + s.b * t.c, s.a * t.b + s.b * t.d,
   s.c * t.a + s.d * t.c, s.c * t.b + s.d * t.d,
   s.a * t.x + s.b * t.y + s.x, s.c * t.x + s.d * t.y + s.y⟩

/-- `transform_point`. -/
def Tx.transform_point (t : Tx) (p : Int × Int) : Int × Int :=
  (t.a * p.1 + t.b * p.2 + t.x, t.c * p.1 + t.d * p.2 + t.y)

/-- Translation by `(dx, dy)`. -/
def Tx.translation (dx dy : Int) : Tx := ⟨1, 0, 0, 1, dx, dy⟩

/-- Rotation by 180 degrees about the origin (exact). -/
def Tx.rot180 : Tx := ⟨-1, 0, 0, -1, 0, 0⟩

/-- The `Transform` component: author-controlled local transform and derived
global transform.  (`local` is a Lean keyword, hence the primed field.) -/
structure Transform where
  local' : Tx
  global : Tx
deriving DecidableEq, Repr

/-- `Transform::new`: both the local and the global transform start as the
given transform. -/
def Transform.new (t : Tx) : Transform :=
  { local' := t, global := t }

/-- Hierarchy change events. -/
inductive HierarchyEvent
  | ModifiedOrCreated (e : Entity)
  | Removed (e : Entity)
deriving DecidableEq, Repr

/-- Component-store change events for the `Transform` component. -/
inductive ComponentEvent
  | Inserted (e : Entity)
  | Modified (e : Entity)
  | Removed (e : Entity)
deriving DecidableEq, Repr

/-- Modelled from the spec: the read interface of the hierarchy manager
(`hierarchy.rs`, not among the given sources): `all()` lists the tracked
entities ancestors-first, `parent()` and `children()` report the current
indices. -/
structure Hierarchy where
  all : List Entity
  parentOf : Entity → Option Entity
  childrenOf : Entity → List Entity

/-- Modelled from the spec: the entity store's `Transform` column, an opaque
keyed store supporting get/get-mut by identifier. -/
abbrev TWorld := List (Entity × Transform)

/-- `world.get::<Transform>(e)`. -/
def getW (w : TWorld) (e : Entity) : Option Transform :=
  (w.find? (fun p => p.1 == e)).map (·.2)

/-- Write `e`'s global transform (the only field `update` ever writes). -/
def setGlobal : TWorld → Entity → Tx → TWorld
  | [], _, _ => []
  | p :: rest, e, t =>
    if p.1 == e then (p.1, { p.2 with global := t }) :: setGlobal rest e t
    else p :: setGlobal rest e t

/-- `HashSet::insert` on the working sets (modelled as duplicate-free lists;
iteration order of a hash set is arbitrary, and every loop below is
insensitive to it). -/
def insertE (l : List Entity) (e : Entity) : List Entity :=
  if e ∈ l then l else l ++ [e]

/-- `HashSet::extend`. -/
def extendE (l : List Entity) (es : List Entity) : List Entity :=
  es.foldl insertE l

/-- One hierarchy event drained into the `(modified, removed)` sets. -/
def drainHierStep (mr : List Entity × List Entity) (ev : HierarchyEvent) :
    List Entity × List Entity :=
  match ev with
  | .ModifiedOrCreated e => (insertE mr.1 e, mr.2)
  | .Removed e => (mr.1, insertE mr.2 e)

/-- One component event drained into the `(modified, removed)` sets: inserts
and modifications dirty the entity itself; removal of an entity's transform
dirties that entity's current children as reported by the hierarchy. -/
def drainCompStep (h : Hierarchy) (mr : List Entity × List Entity)
    (ev : ComponentEvent) : List Entity × List Entity :=
  match ev with
  | .Inserted e => (insertE mr.1 e, mr.2)
  | .Modified e => (insertE mr.1 e, mr.2)
  | .Removed e => (extendE mr.1 (h.childrenOf e), mr.2)

/-- Drain both change streams into the freshly cleared working sets, exactly
in the order `update` does (hierarchy stream first). -/
def drainEvents (h : Hierarchy) (hes : List HierarchyEvent)
    (ces : List ComponentEvent) : List Entity × List Entity :=
  ces.foldl (drainCompStep h) (hes.foldl drainHierStep ([], []))

/-- Shared shape of the removed pass and the final pass: for each listed
entity that still has a `Transform`, set `global := local` (skipping absent
entities, per `if let Ok`).  Each performed write appends a `Modified`
event. -/
def globalToLocal (w : TWorld) (es : List Entity) (evs : List ComponentEvent) :
    TWorld × List ComponentEvent :=
  es.foldl (fun acc e =>
    match getW acc.1 e with
    | some t => (setGlobal acc.1 e t.local', acc.2 ++ [ComponentEvent.Modified e])
    | none => acc) (w, evs)

/-- The walk over `hierarchy.all()`: a dirty entity is removed from the set,
its children are dirtied, and its global is recomputed from its parent's
current global.  `none` models the `expect` panics (entity in the hierarchy
order with no parent, or parent/entity missing a `Transform`). -/
def walkAll (h : Hierarchy) :
    List Entity → TWorld → List Entity → List ComponentEvent →
      Option (TWorld × List Entity × List ComponentEvent)
  | [], w, m, evs => some (w, m, evs)
  | e :: rest, w, m, evs =>
    if e ∈ m then
      let m1 := extendE (m.erase e) (h.childrenOf e)
      match h.parentOf e with
      | none => none
      | some p =>
        match getW w p, getW w e with
        | some pt, some t =>
            walkAll h rest (setGlobal w e (pt.global.mul t.local')) m1
              (evs ++ [ComponentEvent.Modified e])
        | _, _ => none
    else walkAll h rest w m evs

/-- `TransformManager::update`: drain both streams, detach the removed
entities, walk the hierarchy order recomposing dirty entities, then treat
the leftover dirty entities (not tracked by the hierarchy) as roots.
Returns the updated store and the `Modified` events the writes appended, or
`none` on an `expect` panic. -/
def tmUpdate (h : Hierarchy) (hes : List HierarchyEvent)
    (ces : List ComponentEvent) (w : TWorld) :
    Option (TWorld × List ComponentEvent) :=
  match walkAll h h.all (globalToLocal w (drainEvents h hes ces).2 []).1
      (drainEvents h hes ces).1 (globalToLocal w (drainEvents h hes ces).2 []).2 with
  | none => none
  | some (w2, m2, evs2) => some (globalToLocal w2 m2 evs2)

/-! ## Helper lemmas on association lists and `find?` -/

theorem findPair_eq_some {κ β : Type} [BEq κ] [LawfulBEq κ]
    {l : List (κ × β)} {i : κ} {x : β}
    (h : (i, x) ∈ l) (hnd : (l.map (·.1)).Nodup) :
    l.find? (fun p => p.1 == i) = some (i, x) := by
  induction l with
  | nil => cases h
  | cons p t ih =>
    simp only [List.map_cons, List.nodup_cons] at hnd
    rcases List.mem_cons.mp h with rfl | ht
    · simp [List.find?]
    · have hne : p.1 ≠ i := by
        intro hEq
        exact hnd.1 (hEq ▸ List.mem_map.mpr ⟨(i, x), ht, rfl⟩)
      simp only [List.find?, beq_eq_false_iff_ne.mpr hne]
      exact ih ht hnd.2

theorem lookupA_mem {α : Type} {l : List (Atom × α)} {n : Atom} {v : α}
    (h : lookupA l n = some v) : (n, v) ∈ l := by
  unfold lookupA at h
  cases hf : l.find? (fun p => p.1 == n) with
  | none => simp [hf] at h
  | some p =>
    cases p with
    | mk p1 p2 =>
      have hp := List.find?_some hf
      have hmem := List.mem_of_find?_eq_some hf
      have h1 : p1 = n := by simpa using hp
      have h2 : p2 = v := by
        rw [hf] at h
        exact Option.some.inj h
      subst h1; subst h2; exact hmem

theorem lookupA_eq_none_iff {α : Type} {l : List (Atom × α)} {n : Atom} :
    lookupA l n = none ↔ ∀ v, (n, v) ∉ l := by
  constructor
  · intro h v hv
    cases hl : lookupA l n with
    | none =>
      unfold lookupA at hl
      cases hf : l.find? (fun p => p.1 == n) with
      | none =>
        have := List.find?_eq_none.mp hf _ hv
        simp at this
      | some p => simp [hf] at hl
    | some w => rw [h] at hl; cases hl
  · intro h
    unfold lookupA
    cases hf : l.find? (fun p => p.1 == n) with
    | none => rfl
    | some p =>
      have hp := List.find?_some hf
      have hmem := List.mem_of_find?_eq_some hf
      have h1 : p.1 = n := by simpa using hp
      exact absurd (by cases p; cases h1; exact hmem) (h p.2)

theorem mem_lookupA {α : Type} {l : List (Atom × α)} {n : Atom} {v : α}
    (h : (n, v) ∈ l) (hnd : (l.map (·.1)).Nodup) : lookupA l n = some v := by
  unfold lookupA
  rw [findPair_eq_some h hnd]
  rfl

theorem lookupA_insertA_self {α : Type} (l : List (Atom × α)) (n : Atom) (v : α) :
    lookupA (insertA l n v) n = some v := by
  unfold lookupA insertA
  rw [List.find?_append]
  have h1 : (l.filter (fun p => decide (p.1 ≠ n))).find? (fun p => p.1 == n) = none := by
    rw [List.find?_eq_none]
    intro p hp
    have := (List.mem_filter.mp hp).2
    simpa using this
  simp [h1, List.find?]

/-! ## Kahn's algorithm: success yields a topological order -/

theorem noIncoming_iff {edges : List (Nat × Nat)} {rem : List Nat} {v : Nat} :
    noIncoming edges rem v = true ↔ ∀ u ∈ rem, (u, v) ∉ edges := by
  simp [noIncoming, List.any_eq_true]

theorem kahn_perm {edges : List (Nat × Nat)} :
    ∀ fuel rem l, kahn edges fuel rem = Except.ok l → l.Perm rem := by
  intro fuel
  induction fuel with
  | zero =>
    intro rem l h
    cases rem with
    | nil =>
      simp only [kahn, Except.ok.injEq] at h
      subst h; exact List.Perm.refl _
    | cons r rs => simp [kahn] at h
  | succ fuel ih =>
    intro rem l h
    cases rem with
    | nil =>
      simp only [kahn, Except.ok.injEq] at h
      subst h; exact List.Perm.refl _
    | cons r rs =>
      unfold kahn at h
      split at h
      · cases h
      · split at h
        · rename_i rest hrec
          cases h
          have hperm := ih _ _ hrec
          have h1 : ((r :: rs).filter (fun v => noIncoming edges (r :: rs) v) ++ rest).Perm
              ((r :: rs).filter (fun v => noIncoming edges (r :: rs) v) ++
                (r :: rs).filter (fun v => !noIncoming edges (r :: rs) v)) :=
            List.Perm.append_left _ hperm
          exact h1.trans (List.filter_append_perm _ _)
        · cases h

theorem kahn_sound {edges : List (Nat × Nat)} :
    ∀ fuel rem l, kahn edges fuel rem = Except.ok l →
    ∀ u v, (u, v) ∈ edges → u ∈ rem → v ∈ rem → [u, v].Sublist l := by
  intro fuel
  induction fuel with
  | zero =>
    intro rem l h u v _ hu _
    cases rem with
    | nil => cases hu
    | cons r rs => simp [kahn] at h
  | succ fuel ih =>
    intro rem l h u v he hu hv
    cases rem with
    | nil => cases hu
    | cons r rs =>
      unfold kahn at h
      split at h
      · cases h
      · split at h
        · rename_i rest hrec
          cases h
          have hvnr : ¬ v ∈ (r :: rs).filter (fun x => noIncoming edges (r :: rs) x) := by
            intro hvr
            have := (List.mem_filter.mp hvr).2
            exact (noIncoming_iff.mp this) u hu he
          have hvc : v ∈ (r :: rs).filter (fun x => !noIncoming edges (r :: rs) x) := by
            rw [List.mem_filter]
            refine ⟨hv, ?_⟩
            cases hni : noIncoming edges (r :: rs) v with
            | false => rfl
            | true => exact absurd ((noIncoming_iff.mp hni) u hu he) (fun hx => hx)
          by_cases hur : u ∈ (r :: rs).filter (fun x => noIncoming edges (r :: rs) x)
          · have h1 : [u].Sublist ((r :: rs).filter (fun x => noIncoming edges (r :: rs) x)) :=
              List.singleton_sublist.mpr hur
            have h2 : [v].Sublist rest := by
              have hperm := kahn_perm _ _ _ hrec
              exact List.singleton_sublist.mpr ((hperm.mem_iff).mpr hvc)
            exact List.Sublist.append h1 h2
          · have huc : u ∈ (r :: rs).filter (fun x => !noIncoming edges (r :: rs) x) := by
              rw [List.mem_filter]
              refine ⟨hu, ?_⟩
              cases hni : noIncoming edges (r :: rs) u with
              | false => rfl
              | true =>
                exact absurd (List.mem_filter.mpr ⟨hu, hni⟩) hur
            have hsub := ih _ _ hrec u v he huc hvc
            exact hsub.trans (List.sublist_append_right _ _)
        · cases h

/-! ## Kahn's algorithm: failure reports a node lying on a cycle -/

theorem pickPred_spec {edges : List (Nat × Nat)} {R : List Nat} {v : Nat}
    (h : ∃ u ∈ R, (u, v) ∈ edges) :
    pickPred edges R v ∈ R ∧ (pickPred edges R v, v) ∈ edges := by
  unfold pickPred
  have hsome : (R.find? (fun u => decide ((u, v) ∈ edges))).isSome := by
    rw [List.find?_isSome]
    rcases h with ⟨u, hu, he⟩
    exact ⟨u, hu, by simpa using he⟩
  cases hf : R.find? (fun u => decide ((u, v) ∈ edges)) with
  | none => rw [hf] at hsome; cases hsome
  | some u =>
    have h1 := List.find?_some hf
    have h2 := List.mem_of_find?_eq_some hf
    simp only [Option.getD_some]
    exact ⟨h2, by simpa using h1⟩

theorem reach_of_chain {E : List (Nat × Nat)} :
    ∀ {l : List Nat} {a : Nat},
      List.Chain' (fun x y => (x, y) ∈ E) (a :: l) →
      ∀ x ∈ a :: l, ReachE E a x := by
  intro l
  induction l with
  | nil =>
    intro a _ x hx
    rcases List.mem_singleton.mp hx with rfl
    exact ReachE.refl x
  | cons b t ih =>
    intro a hch x hx
    have hab : (a, b) ∈ E := (List.chain'_cons.mp hch).1
    have htail := (List.chain'_cons.mp hch).2
    rcases List.mem_cons.mp hx with rfl | hx'
    · exact ReachE.refl x
    · exact ReachE.head hab (ih htail x hx')

theorem findCycleNode_on_cycle {edges : List (Nat × Nat)} {R : List Nat}
    (hstuck : ∀ v ∈ R, ∃ u ∈ R, (u, v) ∈ edges) :
    ∀ fuel cur visited,
      cur ∈ R → visited ⊆ R →
      (cur :: visited).Nodup →
      List.Chain' (fun x y => (x, y) ∈ edges) (cur :: visited) →
      R.length + 1 ≤ fuel + (cur :: visited).length →
      OnCycle edges (findCycleNode edges R fuel cur visited) ∧
        findCycleNode edges R fuel cur visited ∈ R := by
  intro fuel
  induction fuel with
  | zero =>
    intro cur visited hcur hvis hnd _ hlen
    exfalso
    have hsub : (cur :: visited) ⊆ R := by
      intro x hx
      rcases List.mem_cons.mp hx with rfl | hx'
      · exact hcur
      · exact hvis hx'
    have := (hnd.subperm hsub).length_le
    omega
  | succ fuel ih =>
    intro cur visited hcur hvis hnd hch hlen
    have hp := pickPred_spec (hstuck cur hcur)
    unfold findCycleNode
    by_cases hmem : pickPred edges R cur ∈ cur :: visited
    · simp only [hmem, if_true]
      refine ⟨⟨cur, hp.2, ?_⟩, hp.1⟩
      exact reach_of_chain hch _ hmem
    · simp only [hmem, if_false]
      apply ih (pickPred edges R cur) (cur :: visited) hp.1
      · intro x hx
        rcases List.mem_cons.mp hx with rfl | hx'
        · exact hcur
        · exact hvis hx'
      · exact List.nodup_cons.mpr ⟨hmem, hnd⟩
      · exact List.chain'_cons.mpr ⟨hp.2, hch⟩
      · simp only [List.length_cons] at hlen ⊢
        omega

theorem kahn_error_on_cycle {edges : List (Nat × Nat)} :
    ∀ fuel rem i, rem.length ≤ fuel → kahn edges fuel rem = Except.error i →
    OnCycle edges i ∧ i ∈ rem := by
  intro fuel
  induction fuel with
  | zero =>
    intro rem i hlen h
    cases rem with
    | nil => simp [kahn] at h
    | cons r rs => simp at hlen
  | succ fuel ih =>
    intro rem i hlen h
    cases rem with
    | nil => simp [kahn] at h
    | cons r rs =>
      unfold kahn at h
      split at h
      · rename_i hempty
        have hnil : (r :: rs).filter (fun v => noIncoming edges (r :: rs) v) = [] :=
          List.isEmpty_iff.mp hempty
        have hstuck : ∀ v ∈ r :: rs, ∃ u ∈ r :: rs, (u, v) ∈ edges := by
          intro v hv
          have hfalse : noIncoming edges (r :: rs) v = false := by
            cases hni : noIncoming edges (r :: rs) v with
            | false => rfl
            | true =>
              have : v ∈ (r :: rs).filter (fun x => noIncoming edges (r :: rs) x) :=
                List.mem_filter.mpr ⟨hv, hni⟩
              rw [hnil] at this
              cases this
          unfold noIncoming at hfalse
          have hany : (r :: rs).any (fun u => decide ((u, v) ∈ edges)) = true := by
            cases hA : (r :: rs).any (fun u => decide ((u, v) ∈ edges)) with
            | true => rfl
            | false => rw [hA] at hfalse; cases hfalse
          rcases List.any_eq_true.mp hany with ⟨u, hu, he⟩
          exact ⟨u, hu, of_decide_eq_true he⟩
        have hres := findCycleNode_on_cycle hstuck (r :: rs).length r []
          (List.mem_cons_self r rs) (by intro x hx; cases hx)
          (List.nodup_cons.mpr ⟨(by intro hx; cases hx), List.nodup_nil⟩)
          (List.chain'_singleton r)
          (by simp)
        cases h
        exact hres
      · rename_i hnotempty
        split at h
        · cases h
        · rename_i e hrec
          cases h
          have hlt : ((r :: rs).filter (fun v => !noIncoming edges (r :: rs) v)).length ≤ fuel := by
            have hne : (r :: rs).filter (fun v => noIncoming edges (r :: rs) v) ≠ [] := by
              intro hx
              rw [hx] at hnotempty
              simp at hnotempty
            rcases List.exists_mem_of_ne_nil _ hne with ⟨x, hx⟩
            have hxmem := (List.mem_filter.mp hx).1
            have hxp := (List.mem_filter.mp hx).2
            have hstrict : ((r :: rs).filter (fun v => !noIncoming edges (r :: rs) v)).length
                < (r :: rs).length := by
              rw [List.length_filter_lt_length_iff_exists]
              exact ⟨x, hxmem, by simp [hxp]⟩
            simp only [List.length_cons] at hstrict hlen
            omega
          have hres := ih _ _ hlt hrec
          exact ⟨hres.1, (List.filter_sublist _).subset hres.2⟩

/-! ## A topological order excludes cycles -/

theorem pair_sublist_indexOf {u v : Nat} :
    ∀ {l : List Nat}, [u, v].Sublist l → l.Nodup → l.indexOf u < l.indexOf v := by
  intro l
  induction l with
  | nil => intro h; cases h
  | cons a t ih =>
    intro h hnd
    have hat : a ∉ t := (List.nodup_cons.mp hnd).1
    have hndt : t.Nodup := (List.nodup_cons.mp hnd).2
    cases h with
    | cons _ h' =>
      have hut : u ∈ t := h'.subset (by simp)
      have hvt : v ∈ t := h'.subset (by simp)
      have hua : a ≠ u := fun hEq => hat (hEq ▸ hut)
      have hva : a ≠ v := fun hEq => hat (hEq ▸ hvt)
      rw [List.indexOf_cons_ne _ hua, List.indexOf_cons_ne _ hva]
      have := ih h' hndt
      omega
    | cons₂ _ h' =>
      have hvt : v ∈ t := h'.subset (by simp)
      have hva : u ≠ v := fun hEq => hat (hEq ▸ hvt)
      rw [List.indexOf_cons_self]
      rw [List.indexOf_cons_ne _ hva]
      omega

theorem reach_indexOf {E : List (Nat × Nat)} {l : List Nat} (hnd : l.Nodup)
    (hsound : ∀ u v, (u, v) ∈ E → [u, v].Sublist l) {a b : Nat}
    (h : ReachE E a b) : a = b ∨ l.indexOf a < l.indexOf b := by
  induction h with
  | refl => exact Or.inl rfl
  | head he _ ih =>
    rename_i x y z
    have hxy := pair_sublist_indexOf (hsound _ _ he) hnd
    rcases ih with rfl | hlt
    · exact Or.inr hxy
    · exact Or.inr (hxy.trans hlt)

theorem no_cycle_of_topo {E : List (Nat × Nat)} {l : List Nat} (hnd : l.Nodup)
    (hsound : ∀ u v, (u, v) ∈ E → [u, v].Sublist l) (n : Nat) :
    ¬ OnCycle E n := by
  rintro ⟨m, he, hreach⟩
  have h1 := pair_sublist_indexOf (hsound _ _ he) hnd
  rcases reach_indexOf hnd hsound hreach with rfl | h2
  · omega
  · omega

/-! ## Structural invariant: statement-level consequences and preservation -/

theorem mem_depEdges {indices : List (Atom × DNode)} {u v : Nat} :
    (u, v) ∈ depEdges indices ↔
      ∃ n nd, (n, nd) ∈ indices ∧ nd.graph_index = v ∧
        ∃ d ∈ nd.deps, ∃ dd, lookupA indices d = some dd ∧ dd.graph_index = u := by
  unfold depEdges
  simp only [List.mem_flatMap, List.mem_filterMap, Option.map_eq_some', Prod.mk.injEq]
  constructor
  · rintro ⟨p, hp, d, hd, dd, hdd, hu, hv⟩
    exact ⟨p.1, p.2, by cases p; exact hp, hv, d, hd, dd, hdd, hu⟩
  · rintro ⟨n, nd, hmem, hv, d, hd, dd, hdd, hu⟩
    exact ⟨(n, nd), hmem, d, hd, dd, hdd, hu, hv⟩

theorem depEdges_mem_nodes {T : Type} {g : DepGraph T} (hinv : GInv g) {u v : Nat}
    (h : (u, v) ∈ depEdges g.indices) :
    u ∈ g.graph.map (·.1) ∧ v ∈ g.graph.map (·.1) := by
  rcases mem_depEdges.mp h with ⟨n, nd, hmem, hv, d, _, dd, hdd, hu⟩
  constructor
  · rcases hinv.idx_mem d dd (lookupA_mem hdd) with ⟨w, hw⟩
    exact List.mem_map.mpr ⟨(dd.graph_index, d, w), hw, hu⟩
  · rcases hinv.idx_mem n nd hmem with ⟨w, hw⟩
    exact List.mem_map.mpr ⟨(nd.graph_index, n, w), hw, hv⟩

theorem update_ok_cases {T : Type} {g : DepGraph T} {b : Bool} {g' : DepGraph T}
    (h : g.update = Except.ok (b, g')) :
    (g.changed = false ∧ b = false ∧ g' = g) ∨
    (g.changed = true ∧ b = true ∧ g'.graph = g.graph ∧ g'.indices = g.indices ∧
     g'.nextIdx = g.nextIdx ∧ g'.changed = false ∧
     kahn (depEdges g.indices) (g.graph.map (·.1)).length (g.graph.map (·.1)) =
       Except.ok g'.sorted) := by
  unfold DepGraph.update at h
  split at h
  · rename_i hch
    left
    have hch' : g.changed = false := by
      cases hc : g.changed
      · rfl
      · rw [hc] at hch; cases hch
    cases h
    exact ⟨hch', rfl, rfl⟩
  · rename_i hch
    right
    have hch' : g.changed = true := by
      cases hc : g.changed
      · rw [hc] at hch; simp at hch
      · rfl
    split at h
    · rename_i order hk
      cases h
      exact ⟨hch', rfl, rfl, rfl, rfl, rfl, hk⟩
    · cases h

theorem mem_insertA_iff {α : Type} {l : List (Atom × α)} {n : Atom} {v : α}
    {p : Atom × α} :
    p ∈ insertA l n v ↔ (p ∈ l ∧ p.1 ≠ n) ∨ p = (n, v) := by
  unfold insertA
  simp [List.mem_append, List.mem_filter]

theorem insertA_keys_nodup {α : Type} {l : List (Atom × α)} {n : Atom} {v : α}
    (h : (l.map (·.1)).Nodup) : ((insertA l n v).map (·.1)).Nodup := by
  unfold insertA
  rw [List.map_append]
  apply List.Nodup.append
  · exact h.sublist ((List.filter_sublist _).map _)
  · exact List.nodup_singleton n
  · intro a ha hb
    rcases List.mem_map.mp ha with ⟨p, hp, rfl⟩
    have := (List.mem_filter.mp hp).2
    rcases List.mem_singleton.mp hb with h'
    simp only [decide_eq_true_eq] at this
    exact this h'

theorem keys_nodup_unique {α : Type} {l : List (Atom × α)}
    (h : (l.map (·.1)).Nodup) {k : Atom} {a b : α}
    (ha : (k, a) ∈ l) (hb : (k, b) ∈ l) : a = b := by
  have h1 := mem_lookupA ha h
  have h2 := mem_lookupA hb h
  rw [h1] at h2
  exact Option.some.inj h2

theorem GInv_insert {T : Type} {g : DepGraph T} (hinv : GInv g) (v : T) (n : Atom)
    (d : List Atom) : GInv (g.insert v n d).2 := by
  have hg1nd : ((g.graph ++ [(g.nextIdx, n, v)]).map (·.1)).Nodup := by
    rw [List.map_append]
    apply List.Nodup.append hinv.graph_nodup (List.nodup_singleton _)
    intro a ha hb
    rcases List.mem_map.mp ha with ⟨p, hp, rfl⟩
    rcases List.mem_singleton.mp hb with h'
    simp only [List.map_cons, List.map_nil] at h'
    have := hinv.idx_lt p hp
    omega
  have hkeys : (((insertA g.indices n ⟨d, g.nextIdx⟩).map (·.1))).Nodup :=
    insertA_keys_nodup hinv.keys_nodup
  have hidx_mem1 : ∀ n' nd', (n', nd') ∈ insertA g.indices n ⟨d, g.nextIdx⟩ →
      ∃ w, (nd'.graph_index, n', w) ∈ g.graph ++ [(g.nextIdx, n, v)] := by
    intro n' nd' hmem
    rcases mem_insertA_iff.mp hmem with ⟨hold, _⟩ | hnew
    · rcases hinv.idx_mem n' nd' hold with ⟨w, hw⟩
      exact ⟨w, List.mem_append_left _ hw⟩
    · cases hnew
      exact ⟨v, List.mem_append_right _ (List.mem_singleton.mpr rfl)⟩
  have hold_lt : ∀ n' nd', (n', nd') ∈ g.indices → nd'.graph_index < g.nextIdx := by
    intro n' nd' hmem
    rcases hinv.idx_mem n' nd' hmem with ⟨w, hw⟩
    exact hinv.idx_lt _ hw
  have hidx_inj1 : ∀ n₁ nd₁ n₂ nd₂, (n₁, nd₁) ∈ insertA g.indices n ⟨d, g.nextIdx⟩ →
      (n₂, nd₂) ∈ insertA g.indices n ⟨d, g.nextIdx⟩ →
      nd₁.graph_index = nd₂.graph_index → n₁ = n₂ := by
    intro n₁ nd₁ n₂ nd₂ h₁ h₂ hEq
    rcases mem_insertA_iff.mp h₁ with ⟨ho₁, _⟩ | hn₁ <;>
      rcases mem_insertA_iff.mp h₂ with ⟨ho₂, _⟩ | hn₂
    · exact hinv.idx_inj _ _ _ _ ho₁ ho₂ hEq
    · exfalso
      have := hold_lt _ _ ho₁
      cases hn₂
      simp only at hEq
      omega
    · exfalso
      have := hold_lt _ _ ho₂
      cases hn₁
      simp only at hEq
      omega
    · cases hn₁; cases hn₂; rfl
  unfold DepGraph.insert
  cases hl : lookupA g.indices n with
  | none =>
    refine ⟨hidx_mem1, hg1nd, ?_, hkeys, hidx_inj1, ?_, ?_⟩
    · intro p hp
      rcases List.mem_append.mp hp with h' | h'
      · have := hinv.idx_lt p h'
        simp only
        omega
      · rcases List.mem_singleton.mp h' with rfl
        simp only
        omega
    · intro i n' w hmem
      rcases List.mem_append.mp hmem with h' | h'
      · rcases hinv.graph_mem i n' w h' with ⟨nd', hnd', hgi⟩
        have hne : n' ≠ n := by
          intro hEq
          exact (lookupA_eq_none_iff.mp hl nd') (hEq ▸ hnd')
        exact ⟨nd', mem_insertA_iff.mpr (Or.inl ⟨hnd', hne⟩), hgi⟩
      · rcases List.mem_singleton.mp h' with h''
        cases h''
        exact ⟨⟨d, g.nextIdx⟩, mem_insertA_iff.mpr (Or.inr rfl), rfl⟩
    · intro h'; cases h'
  | some old =>
    have hold_mem : (n, old) ∈ g.indices := lookupA_mem hl
    have holdlt : old.graph_index < g.nextIdx := hold_lt _ _ hold_mem
    refine ⟨?_, ?_, ?_, hkeys, hidx_inj1, ?_, ?_⟩
    · intro n' nd' hmem
      rcases hidx_mem1 n' nd' hmem with ⟨w, hw⟩
      refine ⟨w, List.mem_filter.mpr ⟨hw, ?_⟩⟩
      simp only [decide_eq_true_eq]
      rcases mem_insertA_iff.mp hmem with ⟨ho, hne⟩ | hn'
      · intro hEq
        exact hne (hinv.idx_inj n' nd' n old ho hold_mem hEq)
      · cases hn'
        simp only
        omega
    · exact hg1nd.sublist ((List.filter_sublist _).map _)
    · intro p hp
      have hp1 := (List.mem_filter.mp hp).1
      rcases List.mem_append.mp hp1 with h' | h'
      · have := hinv.idx_lt p h'
        simp only
        omega
      · rcases List.mem_singleton.mp h' with rfl
        simp only
        omega
    · intro i n' w hmem
      have hp1 := (List.mem_filter.mp hmem).1
      have hp2 := (List.mem_filter.mp hmem).2
      simp only [decide_eq_true_eq] at hp2
      rcases List.mem_append.mp hp1 with h' | h'
      · rcases hinv.graph_mem i n' w h' with ⟨nd', hnd', hgi⟩
        have hne : n' ≠ n := by
          intro hEq
          cases hEq
          have := keys_nodup_unique hinv.keys_nodup hnd' hold_mem
          cases this
          exact hp2 hgi.symm
        exact ⟨nd', mem_insertA_iff.mpr (Or.inl ⟨hnd', hne⟩), hgi⟩
      · rcases List.mem_singleton.mp h' with h''
        cases h''
        exact ⟨⟨d, g.nextIdx⟩, mem_insertA_iff.mpr (Or.inr rfl), rfl⟩
    · intro h'; cases h'

theorem GInv_update {T : Type} {g : DepGraph T} (hinv : GInv g) {b : Bool}
    {g' : DepGraph T} (h : g.update = Except.ok (b, g')) : GInv g' := by
  rcases update_ok_cases h with ⟨_, _, rfl⟩ | ⟨_, _, hgr, hix, hnx, hch, hk⟩
  · exact hinv
  · refine ⟨?_, ?_, ?_, ?_, ?_, ?_, ?_⟩
    · rw [hgr, hix]; exact hinv.idx_mem
    · rw [hgr]; exact hinv.graph_nodup
    · rw [hgr, hnx]; exact hinv.idx_lt
    · rw [hix]; exact hinv.keys_nodup
    · rw [hix]; exact hinv.idx_inj
    · rw [hgr, hix]; exact hinv.graph_mem
    · intro _
      constructor
      · rw [hgr]
        exact (kahn_perm _ _ _ hk).symm.symm
      · intro u v he
        rw [hix] at he
        have hends := depEdges_mem_nodes hinv he
        exact kahn_sound _ _ _ hk u v he hends.1 hends.2

theorem reachable_GInv {T : Type} {g : DepGraph T} (h : Reachable g) : GInv g := by
  induction h with
  | new =>
    refine ⟨?_, ?_, ?_, ?_, ?_, ?_, ?_⟩
    · intro n nd hx; cases hx
    · exact List.nodup_nil
    · intro p hp; cases hp
    · exact List.nodup_nil
    · intro n₁ nd₁ n₂ nd₂ h₁ _ _; cases h₁
    · intro i n' w hx; cases hx
    · intro _; exact ⟨List.Perm.refl _, fun u v he => by cases he⟩
  | ins v n d _ ih => exact GInv_insert ih v n d
  | upd _ hup ih => exact GInv_update ih hup

/-! ## Claim theorems for the dependency graph -/

theorem graph1_nodup {T : Type} {g : DepGraph T} (hinv : GInv g) (n : Atom) (v : T) :
    ((g.graph ++ [(g.nextIdx, n, v)]).map (·.1)).Nodup := by
  rw [List.map_append]
  apply List.Nodup.append hinv.graph_nodup (List.nodup_singleton _)
  intro a ha hb
  rcases List.mem_map.mp ha with ⟨p, hp, rfl⟩
  rcases List.mem_singleton.mp hb with h'
  simp only [List.map_cons, List.map_nil] at h'
  have := hinv.idx_lt p hp
  omega

/-- C5: calling `sorted()` while the graph is dirty — in particular right
after any `insert`, whose result is always dirty — hits the `assert!` and
panics (modelled as `none`) instead of returning any sequence. -/
theorem c5_stale_ordering_panics {T : Type} (g : DepGraph T) :
    (∀ v n d, ((g.insert v n d).2).sortedSeq = none) ∧
    (g.is_dirty = true → g.sortedSeq = none) := by
  constructor
  · intro v n d
    unfold DepGraph.insert
    cases hl : lookupA g.indices n <;> simp [DepGraph.sortedSeq]
  · intro h
    unfold DepGraph.is_dirty at h
    simp [DepGraph.sortedSeq, h]

def c5g : DepGraph Nat := ((DepGraph.new Nat).insert 7 "A" []).2

theorem c5_witness : c5g.sortedSeq = none ∧ ((c5g.insert 8 "B" []).2).sortedSeq = none :=
  ⟨(c5_stale_ordering_panics c5g).2 (by rfl), (c5_stale_ordering_panics c5g).1 8 "B" []⟩

/-- C6: `update()` on a non-dirty graph returns `Ok(false)` and is a no-op.
After any successful `update`, the state is not dirty, so a second `update`
with no intervening `insert` returns `Ok(false)` with the state — and hence
the sequence yielded by `sorted()` — unchanged. -/
theorem c6_idempotent_update {T : Type} {g : DepGraph T} {b : Bool}
    {g' : DepGraph T} (h : g.update = Except.ok (b, g')) :
    g'.update = Except.ok (false, g') ∧ g'.is_dirty = false := by
  have hch : g'.changed = false := by
    rcases update_ok_cases h with ⟨hch, _, rfl⟩ | ⟨_, _, _, _, _, hch, _⟩ <;> exact hch
  constructor
  · unfold DepGraph.update
    rw [hch]
    rfl
  · exact hch

/-- C9: when `update()` fails with a cycle error, the graph stays dirty, so
`sorted()` still panics (returns `none`) instead of exposing the previously
cached order, and no call of `update()` on this state can return `Ok` —
in particular not `Ok(false)`: it re-attempts the recomputation. -/
theorem c9_failed_update_stays_dirty {T : Type} {g : DepGraph T} {e : Atom}
    (he : g.update = Except.error e) :
    g.is_dirty = true ∧ g.sortedSeq = none ∧
      ∀ b (g' : DepGraph T), ¬ g.update = Except.ok (b, g') := by
  have hch : g.changed = true := by
    cases hc : g.changed with
    | true => rfl
    | false =>
      unfold DepGraph.update at he
      rw [hc] at he
      cases he
  refine ⟨hch, by simp [DepGraph.sortedSeq, hch], ?_⟩
  intro b g' hok
  rw [he] at hok
  cases hok

/-- C7: `insert` always succeeds (the model is total where the Rust method
unconditionally returns `Ok`), evicts and returns the previously stored
value exactly when the name was already bound (`none` otherwise), leaves the
name bound to the new value and dependency list, and always marks the graph
dirty. -/
theorem c7_insert_contract {T : Type} {g : DepGraph T} (hg : Reachable g) (v : T)
    (nm : Atom) (deps : List Atom) :
    ((g.insert v nm deps).2).is_dirty = true
    ∧ (lookupA g.indices nm = none → (g.insert v nm deps).1 = none)
    ∧ (∀ nd oldv, lookupA g.indices nm = some nd →
        (nd.graph_index, nm, oldv) ∈ g.graph → (g.insert v nm deps).1 = some oldv)
    ∧ lookupA ((g.insert v nm deps).2).indices nm = some ⟨deps, g.nextIdx⟩
    ∧ (g.nextIdx, nm, v) ∈ ((g.insert v nm deps).2).graph := by
  have hinv := reachable_GInv hg
  cases hl : lookupA g.indices nm with
  | none =>
    refine ⟨?_, ?_, ?_, ?_, ?_⟩
    · simp [DepGraph.insert, hl, DepGraph.is_dirty]
    · intro _
      simp [DepGraph.insert, hl]
    · intro nd oldv hsome _
      cases hsome
    · simp only [DepGraph.insert, hl]
      exact lookupA_insertA_self _ _ _
    · simp only [DepGraph.insert, hl]
      exact List.mem_append_right _ (List.mem_singleton.mpr rfl)
  | some old =>
    have hold_mem := lookupA_mem hl
    rcases hinv.idx_mem _ _ hold_mem with ⟨w, hw⟩
    have holdlt : old.graph_index < g.nextIdx := hinv.idx_lt _ hw
    refine ⟨?_, ?_, ?_, ?_, ?_⟩
    · simp [DepGraph.insert, hl, DepGraph.is_dirty]
    · intro hnone
      cases hnone
    · intro nd oldv hsome hmem
      have hnd : nd = old := (Option.some.inj hsome).symm
      subst hnd
      simp only [DepGraph.insert, hl]
      have hfind : (g.graph ++ [(g.nextIdx, nm, v)]).find?
          (fun p => p.1 == nd.graph_index) = some (nd.graph_index, nm, oldv) :=
        findPair_eq_some (List.mem_append_left _ hmem) (graph1_nodup hinv nm v)
      rw [hfind]
      rfl
    · simp only [DepGraph.insert, hl]
      exact lookupA_insertA_self _ _ _
    · simp only [DepGraph.insert, hl]
      refine List.mem_filter.mpr
        ⟨List.mem_append_right _ (List.mem_singleton.mpr rfl), ?_⟩
      show decide (g.nextIdx ≠ old.graph_index) = true
      simp only [decide_eq_true_eq]
      omega

def c7g : DepGraph Nat := ((DepGraph.new Nat).insert 10 "A" ["B"]).2

theorem c7_witness :
    ((c7g.insert 20 "A" []).2).is_dirty = true
    ∧ (c7g.insert 20 "A" []).1 = some 10
    ∧ lookupA ((c7g.insert 20 "A" []).2).indices "A" = some ⟨[], c7g.nextIdx⟩
    ∧ (c7g.nextIdx, "A", 20) ∈ ((c7g.insert 20 "A" []).2).graph := by
  have h := c7_insert_contract (g := c7g)
    (Reachable.ins 10 "A" ["B"] Reachable.new) 20 "A" []
  exact ⟨h.1, h.2.2.1 ⟨["B"], 0⟩ 10 (by rfl) (by simp [c7g, DepGraph.insert, DepGraph.new, lookupA, insertA]),
    h.2.2.2.1, h.2.2.2.2⟩

/-- C1: after an `update()` that returns `Ok`, for every node `n` and every
name `d` in `n`'s dependency list that is bound in the graph, the node named
`d` appears strictly before the node named `n` in the sequence yielded by
`sorted()` (expressed as: the two `(name, value)` entries form a sublist of
the yielded sequence, in that order). -/
theorem c1_topological_soundness {T : Type} {g : DepGraph T} (hg : Reachable g)
    {b : Bool} {g' : DepGraph T} (hu : g.update = Except.ok (b, g'))
    {n d : Atom} {nd dd : DNode}
    (hn : lookupA g'.indices n = some nd) (hd : d ∈ nd.deps)
    (hdd : lookupA g'.indices d = some dd) :
    ∃ l vd vn, g'.sortedSeq = some l ∧ [(d, vd), (n, vn)].Sublist l := by
  have hinv' : GInv g' := GInv_update (reachable_GInv hg) hu
  have hch' : g'.changed = false := (c6_idempotent_update hu).2
  have hso : SortedOK g' := hinv'.sorted_ok hch'
  have hedge : (dd.graph_index, nd.graph_index) ∈ depEdges g'.indices :=
    mem_depEdges.mpr ⟨n, nd, lookupA_mem hn, rfl, d, hd, dd, hdd, rfl⟩
  have hsub : [dd.graph_index, nd.graph_index].Sublist g'.sorted := hso.2 _ _ hedge
  rcases hinv'.idx_mem d dd (lookupA_mem hdd) with ⟨vd, hvd⟩
  rcases hinv'.idx_mem n nd (lookupA_mem hn) with ⟨vn, hvn⟩
  have hfd : g'.graph.find? (fun p => p.1 == dd.graph_index) =
      some (dd.graph_index, d, vd) := findPair_eq_some hvd hinv'.graph_nodup
  have hfn : g'.graph.find? (fun p => p.1 == nd.graph_index) =
      some (nd.graph_index, n, vn) := findPair_eq_some hvn hinv'.graph_nodup
  refine ⟨g'.sorted.filterMap (fun i =>
      (g'.graph.find? (fun p => p.1 == i)).map (fun p => p.2)), vd, vn, ?_, ?_⟩
  · simp [DepGraph.sortedSeq, hch']
  · have hmap := List.Sublist.filterMap
      (fun i => (g'.graph.find? (fun p => p.1 == i)).map (fun p => p.2)) hsub
    have hred : [dd.graph_index, nd.graph_index].filterMap (fun i =>
        (g'.graph.find? (fun p => p.1 == i)).map (fun p => p.2)) =
        [(d, vd), (n, vn)] := by
      simp [List.filterMap_cons, hfd, hfn]
    rw [hred] at hmap
    exact hmap

/-- C2: whenever the current dependency declarations contain a cycle among
present nodes, `update()` returns an error carrying the name of a node that
lies on a cycle of the rebuilt edge relation (the Rust code interpolates
exactly this name into its error message).  No new state — and hence no
order — is produced: in this pure model an erring `update` returns nothing
but the error, so nothing is cached. -/
theorem c2_cycle_detected {T : Type} {g : DepGraph T} (hg : Reachable g)
    (hcyc : ∃ i, OnCycle (depEdges g.indices) i) :
    ∃ nm i w, g.update = Except.error nm ∧ (i, nm, w) ∈ g.graph ∧
      OnCycle (depEdges g.indices) i := by
  have hinv := reachable_GInv hg
  rcases hcyc with ⟨j, hj⟩
  have hch : g.changed = true := by
    cases hc : g.changed with
    | true => rfl
    | false =>
      exfalso
      have hso := hinv.sorted_ok hc
      have hnd : g.sorted.Nodup := (hso.1.nodup_iff).mpr hinv.graph_nodup
      exact no_cycle_of_topo hnd hso.2 j hj
  cases hk : kahn (depEdges g.indices) (g.graph.map (·.1)).length (g.graph.map (·.1)) with
  | ok order =>
    exfalso
    have hperm := kahn_perm _ _ _ hk
    have hnd : order.Nodup := (hperm.nodup_iff).mpr hinv.graph_nodup
    have hsound : ∀ u v, (u, v) ∈ depEdges g.indices → [u, v].Sublist order := by
      intro u v he
      have hends := depEdges_mem_nodes hinv he
      exact kahn_sound _ _ _ hk u v he hends.1 hends.2
    exact no_cycle_of_topo hnd hsound j hj
  | error i =>
    have hic := kahn_error_on_cycle _ _ _ (le_refl _) hk
    rcases List.mem_map.mp hic.2 with ⟨⟨i2, nm, w⟩, hp, hpi⟩
    simp only at hpi
    subst hpi
    have hfind : g.graph.find? (fun q => q.1 == i2) = some (i2, nm, w) :=
      findPair_eq_some hp hinv.graph_nodup
    refine ⟨nm, i2, w, ?_, hp, hic.1⟩
    rw [List.length_map] at hk
    simp [DepGraph.update, hch, hk, hfind]

def c1g : DepGraph Nat := (((DepGraph.new Nat).insert 10 "B" []).2.insert 20 "A" ["B"]).2

def c1gU : DepGraph Nat :=
  { graph := [(0, "B", 10), (1, "A", 20)], nextIdx := 2,
    indices := [("B", ⟨[], 0⟩), ("A", ⟨["B"], 1⟩)], sorted := [0, 1], changed := false }

theorem c1_witness :
    ∃ l vd vn, c1gU.sortedSeq = some l ∧ [("B", vd), ("A", vn)].Sublist l :=
  @c1_topological_soundness Nat c1g
    (Reachable.ins 20 "A" ["B"] (Reachable.ins 10 "B" [] Reachable.new))
    true c1gU rfl "A" "B" ⟨["B"], 1⟩ ⟨[], 0⟩
    rfl (List.mem_singleton.mpr rfl) rfl

def c9g : DepGraph Nat := (((DepGraph.new Nat).insert 1 "A" ["B"]).2.insert 2 "B" ["A"]).2

theorem c2_witness :
    ∃ nm i w, c9g.update = Except.error nm ∧ (i, nm, w) ∈ c9g.graph ∧
      OnCycle (depEdges c9g.indices) i :=
  c2_cycle_detected
    (Reachable.ins 2 "B" ["A"] (Reachable.ins 1 "A" ["B"] Reachable.new))
    ⟨0, 1, by decide, ReachE.head (by decide) (ReachE.refl 0)⟩

theorem c9_witness :
    c9g.is_dirty = true ∧ c9g.sortedSeq = none ∧
      ∀ b (g' : DepGraph Nat), ¬ c9g.update = Except.ok (b, g') :=
  c9_failed_update_stays_dirty (e := "A") rfl

theorem c6_witness : c1gU.update = Except.ok (false, c1gU) ∧ c1gU.is_dirty = false :=
  c6_idempotent_update (g := c1g) (b := true) rfl

/-! ## Claim theorems for the transform manager -/

/-- C10: `Transform::new(t)` initialises both the local and the global
transform to `t`, so an entity's global equals its local from creation until
the first update pass that rewrites its global. -/
theorem c10_transform_new (t : Tx) :
    (Transform.new t).global = (Transform.new t).local' ∧
    (Transform.new t).local' = t ∧ (Transform.new t).global = t :=
  ⟨rfl, rfl, rfl⟩

theorem mem_insertE {l : List Entity} {e x : Entity} :
    x ∈ insertE l e ↔ x ∈ l ∨ x = e := by
  unfold insertE
  split
  · rename_i he
    constructor
    · exact Or.inl
    · rintro (h | rfl)
      · exact h
      · exact he
  · simp [List.mem_append]

theorem mem_extendE {es : List Entity} :
    ∀ {l : List Entity} {x : Entity}, x ∈ extendE l es ↔ x ∈ l ∨ x ∈ es := by
  induction es with
  | nil => intro l x; simp [extendE]
  | cons a t ih =>
    intro l x
    show x ∈ extendE (insertE l a) t ↔ _
    rw [ih, mem_insertE]
    simp [List.mem_cons]
    tauto

theorem mem_drainHier (hes : List HierarchyEvent) :
    ∀ (mr : List Entity × List Entity) (x : Entity),
      (x ∈ (hes.foldl drainHierStep mr).1 ↔
        x ∈ mr.1 ∨ HierarchyEvent.ModifiedOrCreated x ∈ hes) ∧
      (x ∈ (hes.foldl drainHierStep mr).2 ↔
        x ∈ mr.2 ∨ HierarchyEvent.Removed x ∈ hes) := by
  induction hes with
  | nil => intro mr x; simp
  | cons ev t ih =>
    intro mr x
    cases ev with
    | ModifiedOrCreated e =>
      rcases ih (insertE mr.1 e, mr.2) x with ⟨h1, h2⟩
      rw [List.foldl_cons]
      constructor
      · show x ∈ (t.foldl drainHierStep (insertE mr.1 e, mr.2)).1 ↔ _
        rw [h1]
        show (x ∈ insertE mr.1 e ∨ _) ↔ _
        rw [mem_insertE]
        simp [List.mem_cons]
        tauto
      · show x ∈ (t.foldl drainHierStep (insertE mr.1 e, mr.2)).2 ↔ _
        rw [h2]
        simp [List.mem_cons]
    | Removed e =>
      rcases ih (mr.1, insertE mr.2 e) x with ⟨h1, h2⟩
      rw [List.foldl_cons]
      constructor
      · show x ∈ (t.foldl drainHierStep (mr.1, insertE mr.2 e)).1 ↔ _
        rw [h1]
        simp [List.mem_cons]
      · show x ∈ (t.foldl drainHierStep (mr.1, insertE mr.2 e)).2 ↔ _
        rw [h2]
        show (x ∈ insertE mr.2 e ∨ _) ↔ _
        rw [mem_insertE]
        simp [List.mem_cons]
        tauto

set_option maxHeartbeats 1600000 in
theorem mem_drainComp (h : Hierarchy) (ces : List ComponentEvent) :
    ∀ (mr : List Entity × List Entity) (x : Entity),
      (x ∈ (ces.foldl (drainCompStep h) mr).1 ↔
        x ∈ mr.1 ∨ ComponentEvent.Inserted x ∈ ces ∨ ComponentEvent.Modified x ∈ ces ∨
          ∃ e, ComponentEvent.Removed e ∈ ces ∧ x ∈ h.childrenOf e) ∧
      (x ∈ (ces.foldl (drainCompStep h) mr).2 ↔ x ∈ mr.2) := by
  induction ces with
  | nil => intro mr x; simp
  | cons ev t ih =>
    intro mr x
    cases ev with
    | Inserted e =>
      rcases ih (insertE mr.1 e, mr.2) x with ⟨h1, h2⟩
      rw [List.foldl_cons]
      constructor
      · show x ∈ (t.foldl (drainCompStep h) (insertE mr.1 e, mr.2)).1 ↔ _
        rw [h1]
        show (x ∈ insertE mr.1 e ∨ _) ↔ _
        rw [mem_insertE]
        simp [List.mem_cons]
        tauto
      · exact h2
    | Modified e =>
      rcases ih (insertE mr.1 e, mr.2) x with ⟨h1, h2⟩
      rw [List.foldl_cons]
      constructor
      · show x ∈ (t.foldl (drainCompStep h) (insertE mr.1 e, mr.2)).1 ↔ _
        rw [h1]
        show (x ∈ insertE mr.1 e ∨ _) ↔ _
        rw [mem_insertE]
        simp [List.mem_cons]
        tauto
      · exact h2
    | Removed e =>
      rcases ih (extendE mr.1 (h.childrenOf e), mr.2) x with ⟨h1, h2⟩
      rw [List.foldl_cons]
      constructor
      · show x ∈ (t.foldl (drainCompStep h) (extendE mr.1 (h.childrenOf e), mr.2)).1 ↔ _
        rw [h1]
        show (x ∈ extendE mr.1 (h.childrenOf e) ∨ _) ↔ _
        rw [mem_extendE]
        simp [List.mem_cons]
        tauto
      · exact h2

/-- C8: draining a `ComponentEvent.Removed e` event adds exactly the current
children of `e` (as reported by the hierarchy manager) to the dirty set, and
nothing to the removed set: the characterisation shows an entity is dirty
iff it was named by a hierarchy `ModifiedOrCreated`, a component
`Inserted`/`Modified`, or is a child of an entity whose transform was
removed — so `e` itself enters neither set on account of its own `Removed`
event — and the removed set collects exactly the hierarchy `Removed`
events. -/
theorem c8_removed_event_dirties_children (h : Hierarchy)
    (hes : List HierarchyEvent) (ces : List ComponentEvent) (x : Entity) :
    (x ∈ (drainEvents h hes ces).1 ↔
      HierarchyEvent.ModifiedOrCreated x ∈ hes ∨ ComponentEvent.Inserted x ∈ ces ∨
        ComponentEvent.Modified x ∈ ces ∨
        ∃ e, ComponentEvent.Removed e ∈ ces ∧ x ∈ h.childrenOf e) ∧
    (x ∈ (drainEvents h hes ces).2 ↔ HierarchyEvent.Removed x ∈ hes) := by
  unfold drainEvents
  rcases mem_drainComp h ces (hes.foldl drainHierStep ([], [])) x with ⟨h1, h2⟩
  rcases mem_drainHier hes ([], []) x with ⟨h3, h4⟩
  constructor
  · rw [h1, h3]
    simp
  · rw [h2, h4]
    simp

theorem setGlobal_cons_eq {k : Entity} {tr : Transform} {rest : TWorld}
    {x : Entity} {t : Tx} (h : k = x) :
    setGlobal ((k, tr) :: rest) x t =
      (k, { tr with global := t }) :: setGlobal rest x t := by
  simp [setGlobal, h]

theorem setGlobal_cons_ne {k : Entity} {tr : Transform} {rest : TWorld}
    {x : Entity} {t : Tx} (h : ¬ k = x) :
    setGlobal ((k, tr) :: rest) x t = (k, tr) :: setGlobal rest x t := by
  simp [setGlobal, h]

theorem getW_cons_eq {k : Entity} {tr : Transform} {rest : TWorld} {e : Entity}
    (h : k = e) : getW ((k, tr) :: rest) e = some tr := by
  simp [getW, List.find?, h]

theorem getW_cons_ne {k : Entity} {tr : Transform} {rest : TWorld} {e : Entity}
    (h : ¬ k = e) : getW ((k, tr) :: rest) e = getW rest e := by
  have h' : ((k : Entity) == e) = false := by simp [h]
  simp [getW, List.find?, h']

theorem getW_setGlobal {x e : Entity} {t : Tx} :
    ∀ {w : TWorld}, getW (setGlobal w x t) e =
      if e = x then (getW w e).map (fun tr => { tr with global := t })
      else getW w e := by
  intro w
  induction w with
  | nil =>
    show getW [] e = _
    by_cases hex : e = x <;> simp [getW, hex]
  | cons p rest ih =>
    obtain ⟨k, tr⟩ := p
    by_cases hkx : k = x <;> by_cases hke : k = e
    · rw [setGlobal_cons_eq hkx, getW_cons_eq hke, getW_cons_eq hke]
      have hex : e = x := by rw [← hke, hkx]
      rw [if_pos hex]
      rfl
    · rw [setGlobal_cons_eq hkx, getW_cons_ne hke, getW_cons_ne hke, ih]
    · have hex : ¬ e = x := by rw [← hke]; exact hkx
      rw [setGlobal_cons_ne hkx, getW_cons_eq hke, getW_cons_eq hke, if_neg hex]
    · rw [setGlobal_cons_ne hkx, getW_cons_ne hke, getW_cons_ne hke, ih]

theorem globalToLocal_getW (es : List Entity) :
    ∀ (w : TWorld) (evs : List ComponentEvent) (e : Entity),
      getW (globalToLocal w es evs).1 e =
        (getW w e).map (fun t => if e ∈ es then { t with global := t.local' } else t) := by
  induction es with
  | nil =>
    intro w evs e
    cases h : getW w e <;> simp [globalToLocal, h]
  | cons a rest ih =>
    intro w evs e
    cases hga : getW w a with
    | none =>
      have hstep : globalToLocal w (a :: rest) evs = globalToLocal w rest evs := by
        unfold globalToLocal
        rw [List.foldl_cons]
        have harm : (match getW w a with
            | some t => (setGlobal w a t.local', evs ++ [ComponentEvent.Modified a])
            | none => ((w, evs) : TWorld × List ComponentEvent)) = (w, evs) := by
          rw [hga]
        rw [harm]
      rw [hstep, ih]
      by_cases hea : e = a
      · subst hea
        rw [hga]
        simp
      · simp [List.mem_cons, hea]
    | some t =>
      have hstep : globalToLocal w (a :: rest) evs =
          globalToLocal (setGlobal w a t.local') rest
            (evs ++ [ComponentEvent.Modified a]) := by
        unfold globalToLocal
        rw [List.foldl_cons]
        have harm : (match getW w a with
            | some t => (setGlobal w a t.local', evs ++ [ComponentEvent.Modified a])
            | none => ((w, evs) : TWorld × List ComponentEvent)) =
            (setGlobal w a t.local', evs ++ [ComponentEvent.Modified a]) := by
          rw [hga]
        rw [harm]
      rw [hstep, ih, getW_setGlobal]
      by_cases hea : e = a
      · subst hea
        rw [if_pos rfl, hga]
        by_cases har : e ∈ rest <;> simp [har, List.mem_cons]
      · rw [if_neg hea]
        simp [List.mem_cons, hea]

theorem walkAll_getW_not_mem (h : Hierarchy) :
    ∀ (l : List Entity) (w : TWorld) (m : List Entity) (evs : List ComponentEvent)
      (w' : TWorld) (m' : List Entity) (evs' : List ComponentEvent),
      walkAll h l w m evs = some (w', m', evs') →
      ∀ e, e ∉ l → getW w' e = getW w e := by
  intro l
  induction l with
  | nil =>
    intro w m evs w' m' evs' hw e _
    cases hw
    rfl
  | cons a rest ih =>
    intro w m evs w' m' evs' hw e he
    have hea : e ≠ a := fun hEq => he (hEq ▸ List.mem_cons_self a rest)
    have her : e ∉ rest := fun hEq => he (List.mem_cons_of_mem a hEq)
    unfold walkAll at hw
    split at hw
    · split at hw
      · cases hw
      · split at hw
        · have := ih _ _ _ _ _ _ hw e her
          rw [this, getW_setGlobal, if_neg hea]
        · cases hw
    · exact ih _ _ _ _ _ _ hw e her

/-- C3: any entity that landed in the removed set during an update (a
drained hierarchy `Removed` event) and still has a `Transform` — such an
entity is no longer tracked, hence not in the hierarchy order — ends that
update with its global transform equal to its local transform.  The
despawn scenario from the spec (e1 at translation (-5,-7) composed with a
180-degree rotation, child e2 at translation (5,3)) is exercised by this
theorem's witness. -/
theorem c3_detachment_on_removal {h : Hierarchy} {hes : List HierarchyEvent}
    {ces : List ComponentEvent} {w w' : TWorld} {evs : List ComponentEvent}
    (hup : tmUpdate h hes ces w = some (w', evs)) {e : Entity}
    (hr : e ∈ (drainEvents h hes ces).2) (hall : e ∉ h.all)
    {t : Transform} (hw : getW w e = some t) :
    getW w' e = some { local' := t.local', global := t.local' } := by
  unfold tmUpdate at hup
  split at hup
  · cases hup
  · rename_i w2 m2 evs2 hwalk
    have hpair := Option.some.inj hup
    have hw' : (globalToLocal w2 m2 evs2).1 = w' := congrArg Prod.fst hpair
    have h4 : getW (globalToLocal w (drainEvents h hes ces).2 []).1 e =
        some { t with global := t.local' } := by
      rw [globalToLocal_getW, hw]
      simp [hr]
    have h5 : getW w2 e = some { t with global := t.local' } := by
      rw [walkAll_getW_not_mem h h.all _ _ _ _ _ _ hwalk e hall]
      exact h4
    rw [← hw', globalToLocal_getW, h5]
    by_cases hm : e ∈ m2 <;> simp [hm]

/-- The transform given to e1: identity, translated by (-5,-7), then rotated
180 degrees (exactly as the test builds it: `tx *= translation; tx *= rotation`). -/
def txE1 : Tx := (Tx.identity.mul (Tx.translation (-5) (-7))).mul Tx.rot180

/-- The transform given to e2: identity translated by (5,3). -/
def txE2 : Tx := Tx.identity.mul (Tx.translation 5 3)

/-- Translation by (5,3) in normal form. -/
def txT53 : Tx := ⟨1, 0, 0, 1, 5, 3⟩

/-- Modelled from the spec: the hierarchy snapshot while no entity carries a
parent relation (before e2 is spawned, and again after e1's despawn makes
e2's parent unresolvable and the hierarchy manager drops e2 from tracking). -/
def c3h0 : Hierarchy := ⟨[], fun _ => none, fun _ => []⟩

/-- Modelled from the spec: the hierarchy snapshot once e2 (entity 1) is
tracked with parent e1 (entity 0). -/
def c3h1 : Hierarchy :=
  ⟨[1], fun e => if e = 1 then some 0 else none, fun e => if e = 0 then [1] else []⟩

/-- The world after e1 and e2 are spawned and the first transform update ran:
both entities still carry their spawn transforms (e1's update pass was a
global := local no-op). -/
def c3w1b : TWorld := [(0, Transform.new txE1), (1, Transform.new txE2)]

/-- Expected world after the propagation step that composes e2 under e1. -/
def c3w2 : TWorld :=
  [(0, { local' := txE1, global := txE1 }),
   (1, { local' := txT53, global := ⟨-1, 0, 0, -1, -10, -10⟩ })]

/-- The world right after e1 is despawned (its entry removed by the store). -/
def c3w2b : TWorld :=
  [(1, { local' := txT53, global := ⟨-1, 0, 0, -1, -10, -10⟩ })]

/-- Expected world after the update following the despawn: e2 detached. -/
def c3w3 : TWorld := [(1, { local' := txT53, global := txT53 })]

theorem c3_witness :
    tmUpdate c3h1 [HierarchyEvent.ModifiedOrCreated 1]
        [ComponentEvent.Modified 0, ComponentEvent.Inserted 1] c3w1b =
      some (c3w2, [ComponentEvent.Modified 1, ComponentEvent.Modified 0])
    ∧ (getW c3w2 1).map (fun tr => tr.global.transform_point (0, 0)) =
        some (-10, -10)
    ∧ getW c3w3 1 = some { local' := txT53, global := txT53 }
    ∧ (getW c3w3 1).map (fun tr => tr.global.transform_point (0, 0)) =
        some (5, 3) := by
  refine ⟨rfl, rfl, ?_, rfl⟩
  exact @c3_detachment_on_removal c3h0 [HierarchyEvent.Removed 1]
    [ComponentEvent.Modified 1, ComponentEvent.Modified 0, ComponentEvent.Removed 0]
    c3w2b c3w3 [ComponentEvent.Modified 1, ComponentEvent.Modified 1] rfl
    1 (by decide) (by decide)
    { local' := txT53, global := ⟨-1, 0, 0, -1, -10, -10⟩ } rfl

/-- The hierarchy for the same-frame hazard scenario: entity 1 is tracked
with (untracked) parent entity 0. -/
def c4H : Hierarchy :=
  ⟨[1], fun e => if e = 1 then some 0 else none, fun _ => []⟩

/-- C4: if an untracked root (entity 0) and its tracked child (entity 1) are
both dirty in the same update — here both just modified, the root holding a
stale global `Gr` different from its local `Lr` — the walk recomputes the
child against the stale `Gr` (the root's own `global := local` write only
happens in the final pass), and the next update, fed exactly the events the
first one's writes emitted, converges to `global(child) = global(root) ∘
local(child) = Lr ∘ Lc`. -/
theorem c4_same_frame_root_lag (Lr Gr Lc Gc : Tx) :
    tmUpdate c4H [] [ComponentEvent.Modified 0, ComponentEvent.Modified 1]
        [(0, { local' := Lr, global := Gr }), (1, { local' := Lc, global := Gc })] =
      some ([(0, { local' := Lr, global := Lr }),
             (1, { local' := Lc, global := Gr.mul Lc })],
        [ComponentEvent.Modified 1, ComponentEvent.Modified 0])
    ∧ tmUpdate c4H [] [ComponentEvent.Modified 1, ComponentEvent.Modified 0]
        [(0, { local' := Lr, global := Lr }),
         (1, { local' := Lc, global := Gr.mul Lc })] =
      some ([(0, { local' := Lr, global := Lr }),
             (1, { local' := Lc, global := Lr.mul Lc })],
        [ComponentEvent.Modified 1, ComponentEvent.Modified 0]) :=
  ⟨rfl, rfl⟩
